import Mathlib

/-!
Verification of the adb device-command wrapper (`src/agent/js/src/adb.js`).

The development shallowly embeds the functions of the source file:
buffers are `List Nat` (byte values), strings are `List Char`, promises
are `Except`, and the stateful `Buffer` allocation/copy behaviour of
`dos2unix` is additionally embedded against an explicit heap of buffers
to reason about mutation and aliasing.
-/

set_option maxHeartbeats 1000000

/-- Left-to-right, non-overlapping replacement of the adjacent pair
`cr, lf` by the single element `lf`.  This is the direct embedding of the
string branch of `Adb.prototype.dos2unix` (`origBuf.replace(/\r\n/g, '\n')`,
JavaScript global regex replacement being left-to-right and
non-overlapping), and, instantiated at bytes `13, 10`, the specification
the buffer branch is compared against. -/
def replacePair [DecidableEq α] (cr lf : α) : List α → List α
  | [] => []
  | [x] => [x]
  | x :: y :: rest =>
    if x = cr ∧ y = lf then lf :: replacePair cr lf rest
    else x :: replacePair cr lf (y :: rest)

/-- Whether the list contains an adjacent `cr, lf` pair. -/
def hasPair [DecidableEq α] (cr lf : α) : List α → Bool
  | [] => false
  | [_] => false
  | x :: y :: rest => (x = cr ∧ y = lf : Bool) || hasPair cr lf (y :: rest)

section ReplacePairLemmas

variable {α : Type _} [DecidableEq α] (cr lf : α)

theorem replacePair_nil : replacePair cr lf ([] : List α) = [] := rfl

theorem replacePair_singleton (x : α) : replacePair cr lf [x] = [x] := rfl

theorem replacePair_cons_cons (x y : α) (rest : List α) :
    replacePair cr lf (x :: y :: rest) =
      if x = cr ∧ y = lf then lf :: replacePair cr lf rest
      else x :: replacePair cr lf (y :: rest) := by
  rfl

theorem hasPair_nil : hasPair cr lf ([] : List α) = false := rfl

theorem hasPair_singleton (x : α) : hasPair cr lf [x] = false := rfl

theorem hasPair_cons_cons (x y : α) (rest : List α) :
    hasPair cr lf (x :: y :: rest) =
      ((x = cr ∧ y = lf : Bool) || hasPair cr lf (y :: rest)) := rfl

theorem replacePair_length_le : ∀ l : List α, (replacePair cr lf l).length ≤ l.length
  | [] => le_refl _
  | [x] => le_refl _
  | x :: y :: rest => by
    rw [replacePair_cons_cons]
    by_cases h : x = cr ∧ y = lf
    · rw [if_pos h]
      have := replacePair_length_le rest
      simp only [List.length_cons]
      omega
    · rw [if_neg h]
      have := replacePair_length_le (y :: rest)
      simp only [List.length_cons] at *
      omega

theorem replacePair_eq_self : ∀ l : List α, hasPair cr lf l = false → replacePair cr lf l = l
  | [], _ => rfl
  | [x], _ => rfl
  | x :: y :: rest, h => by
    rw [hasPair_cons_cons] at h
    simp only [Bool.or_eq_false_iff, decide_eq_false_iff_not] at h
    rw [replacePair_cons_cons, if_neg h.1, replacePair_eq_self (y :: rest) h.2]

theorem replacePair_length_lt :
    ∀ l : List α, hasPair cr lf l = true → (replacePair cr lf l).length < l.length
  | [], h => by simp [hasPair_nil] at h
  | [x], h => by simp [hasPair_singleton] at h
  | x :: y :: rest, h => by
    rw [hasPair_cons_cons] at h
    rw [replacePair_cons_cons]
    by_cases hc : x = cr ∧ y = lf
    · rw [if_pos hc]
      have := replacePair_length_le cr lf rest
      simp only [List.length_cons]
      omega
    · rw [if_neg hc]
      simp only [Bool.or_eq_true, decide_eq_true_eq] at h
      have := replacePair_length_lt (y :: rest) (h.resolve_left hc)
      simp only [List.length_cons] at *
      omega

theorem replacePair_length_eq_iff (l : List α) :
    (replacePair cr lf l).length = l.length ↔ hasPair cr lf l = false := by
  constructor
  · intro h
    by_contra hne
    have := replacePair_length_lt cr lf l (by
      cases hb : hasPair cr lf l
      · exact absurd hb hne
      · rfl)
    omega
  · intro h
    rw [replacePair_eq_self cr lf l h]

/-- Pushing a prefix with no `cr, lf` pair, followed by an explicit pair,
through `replacePair`. -/
theorem replacePair_append_pair (hcl : cr ≠ lf) :
    ∀ l t : List α, hasPair cr lf l = false →
      replacePair cr lf (l ++ cr :: lf :: t) = l ++ lf :: replacePair cr lf t
  | [], t, _ => by
    rw [List.nil_append, replacePair_cons_cons, if_pos ⟨rfl, rfl⟩, List.nil_append]
  | [x], t, _ => by
    have h2 : replacePair cr lf (cr :: lf :: t) = lf :: replacePair cr lf t := by
      rw [replacePair_cons_cons, if_pos ⟨rfl, rfl⟩]
    rw [List.singleton_append, replacePair_cons_cons, if_neg, h2, List.singleton_append]
    rintro ⟨h1, hh⟩
    exact hcl hh
  | x :: y :: rest, t, h => by
    rw [hasPair_cons_cons] at h
    simp only [Bool.or_eq_false_iff, decide_eq_false_iff_not] at h
    have ih := replacePair_append_pair hcl (y :: rest) t h.2
    rw [List.cons_append, List.cons_append, replacePair_cons_cons, if_neg h.1,
      ← List.cons_append, ih]
    simp

/-- `hasPair` in terms of indexed access. -/
theorem hasPair_eq_true_iff (d : α) :
    ∀ l : List α, hasPair cr lf l = true ↔
      ∃ j, j + 1 < l.length ∧ l.getD j d = cr ∧ l.getD (j + 1) d = lf
  | [] => by simp [hasPair_nil]
  | [x] => by simp [hasPair_singleton]
  | x :: y :: rest => by
    rw [hasPair_cons_cons]
    simp only [Bool.or_eq_true, decide_eq_true_eq]
    constructor
    · rintro (⟨h1, h2⟩ | h)
      · exact ⟨0, by simp, by simpa using h1, by simpa using h2⟩
      · obtain ⟨j, hj, hc, hl⟩ := (hasPair_eq_true_iff d (y :: rest)).1 h
        exact ⟨j + 1, by simpa using hj, by simpa using hc, by simpa using hl⟩
    · rintro ⟨j, hj, hc, hl⟩
      match j with
      | 0 =>
        left
        exact ⟨by simpa using hc, by simpa using hl⟩
      | j + 1 =>
        right
        exact (hasPair_eq_true_iff d (y :: rest)).2
          ⟨j, by simpa using hj, by simpa using hc, by simpa using hl⟩

end ReplacePairLemmas

/-- The scan loop of the buffer branch of `Adb.prototype.dos2unix`
(adb.js lines 178-207), embedded with the output buffer as the
accumulated list `ret` of bytes written so far.  `fuel` is a structural
bound on the remaining loop iterations; the loop body runs only while
`pos < b.length`, exactly as in the source, and `dos2unixBytes` supplies
fuel `b.length`, which the loop can never exhaust before its own exit
condition.  On a match of the pair `13, 10` at positions `pos - 1, pos`
the span `[after, pos - 1)` of the input is copied, a single `10` is
written, and the copy point moves past the matched pair; the final
tail copy is the terminal branch. -/
def dos2unixScan (b : List Nat) : Nat → Nat → Nat → List Nat → List Nat
  | 0, _, after, ret => ret ++ b.drop after
  | fuel + 1, pos, after, ret =>
    if pos < b.length then
      if b.getD pos 0 = 10 ∧ b.getD (pos - 1) 0 = 13 then
        dos2unixScan b fuel (pos + 1) (pos + 1)
          (ret ++ (b.drop after).take (pos - 1 - after) ++ [10])
      else
        dos2unixScan b fuel (pos + 1) after ret
    else ret ++ b.drop after

/-- The buffer branch of `Adb.prototype.dos2unix`: scan from position 1,
with the imaginary newline before buffer start at copy point 0 and an
empty output. -/
def dos2unixBytes (b : List Nat) : List Nat := dos2unixScan b b.length 1 0 []

/-- The normalization specification in the spec's words: every two-byte
`0x0D 0x0A` pair replaced by a single `0x0A`, every other byte kept
byte-for-byte in order.  (Modelled from the spec for the refinement
comparison with `dos2unixBytes`.) -/
def specReplaceCRLF (b : List Nat) : List Nat := replacePair 13 10 b

theorem getD_drop' (b : List Nat) (n j d : Nat) : (b.drop n).getD j d = b.getD (n + j) d := by
  simp [List.getD_eq_getElem?_getD, List.getElem?_drop]

theorem getD_take' (b : List Nat) (n j d : Nat) (h : j < n) :
    (b.take n).getD j d = b.getD j d := by
  simp [List.getD_eq_getElem?_getD, List.getElem?_take, h]

/-- If every carriage-return/line-feed pair of `b` at a position below `pos`
has been excluded and `b` ends before `pos`, the un-copied suffix of `b`
holds no pair at all. -/
theorem drop_no_pair (b : List Nat) (pos after : Nat) (hlen : b.length ≤ pos)
    (h5 : ∀ i, after < i → i < pos → i < b.length →
      ¬(b.getD (i - 1) 0 = 13 ∧ b.getD i 0 = 10)) :
    hasPair 13 10 (b.drop after) = false := by
  cases hb : hasPair 13 10 (b.drop after)
  · rfl
  · exfalso
    obtain ⟨j, hj, hc, hl⟩ := (hasPair_eq_true_iff 13 10 0 (b.drop after)).1 hb
    rw [getD_drop'] at hc hl
    rw [List.length_drop] at hj
    refine h5 (after + j + 1) (by omega) (by omega) (by omega) ⟨?_, ?_⟩
    · have : after + j + 1 - 1 = after + j := by omega
      rw [this]; exact hc
    · have : after + (j + 1) = after + j + 1 := by omega
      rw [this] at hl; exact hl

theorem dos2unixScan_zero (b : List Nat) (pos after : Nat) (ret : List Nat) :
    dos2unixScan b 0 pos after ret = ret ++ b.drop after := rfl

theorem dos2unixScan_succ (b : List Nat) (fuel pos after : Nat) (ret : List Nat) :
    dos2unixScan b (fuel + 1) pos after ret =
      if pos < b.length then
        if b.getD pos 0 = 10 ∧ b.getD (pos - 1) 0 = 13 then
          dos2unixScan b fuel (pos + 1) (pos + 1)
            (ret ++ (b.drop after).take (pos - 1 - after) ++ [10])
        else dos2unixScan b fuel (pos + 1) after ret
      else ret ++ b.drop after := rfl

/-- Loop invariant of the `dos2unix` buffer scan: provided the fuel covers
the remaining iterations, the copy point trails the scan position, the
byte before the copy point (if any) is the line-feed of a handled pair,
and every pair strictly before the scan position has been handled, the
scan computes exactly the left-to-right pair replacement of the
un-copied suffix, appended to the output written so far. -/
theorem dos2unixScan_spec (b : List Nat) :
    ∀ fuel pos after ret,
      b.length ≤ pos + fuel → 1 ≤ pos → after ≤ pos →
      (after = 0 ∨ b.getD (after - 1) 0 = 10) →
      (∀ i, after < i → i < pos → i < b.length →
        ¬(b.getD (i - 1) 0 = 13 ∧ b.getD i 0 = 10)) →
      dos2unixScan b fuel pos after ret = ret ++ replacePair 13 10 (b.drop after) := by
  intro fuel
  induction fuel with
  | zero =>
    intro pos after ret h0 h1 h2 h4 h5
    rw [dos2unixScan_zero,
      replacePair_eq_self 13 10 _ (drop_no_pair b pos after (by omega) h5)]
  | succ fuel IH =>
    intro pos after ret h0 h1 h2 h4 h5
    rw [dos2unixScan_succ]
    by_cases hp : pos < b.length
    · rw [if_pos hp]
      by_cases hm : b.getD pos 0 = 10 ∧ b.getD (pos - 1) 0 = 13
      · rw [if_pos hm]
        have hafter : after < pos := by
          rcases h4 with h4 | h4
          · omega
          · rcases Nat.lt_or_ge after pos with h | h
            · exact h
            · exfalso
              have heq : after = pos := by omega
              rw [heq] at h4
              rw [hm.2] at h4
              exact absurd h4 (by norm_num)
        have hIH := IH (pos + 1) (pos + 1)
          (ret ++ (b.drop after).take (pos - 1 - after) ++ [10])
          (by omega) (by omega) (by omega)
          (Or.inr (by simpa using hm.1))
          (by intro i hi1 hi2; omega)
        rw [hIH]
        set seg := (b.drop after).take (pos - 1 - after) with hseg_def
        have hsplit : b.drop after = seg ++ b.drop (pos - 1) := by
          conv_lhs => rw [← List.take_append_drop (pos - 1 - after) (b.drop after)]
          rw [hseg_def, List.drop_drop]
          have : after + (pos - 1 - after) = pos - 1 := by omega
          rw [this]
        have hlt1 : pos - 1 < b.length := by omega
        have hb13 : b[pos - 1] = 13 := by
          have h := hm.2
          rwa [List.getD_eq_getElem?_getD, List.getElem?_eq_getElem hlt1,
            Option.getD_some] at h
        have hb10 : b[pos] = 10 := by
          have h := hm.1
          rwa [List.getD_eq_getElem?_getD, List.getElem?_eq_getElem hp,
            Option.getD_some] at h
        have hdrop1 : b.drop (pos - 1) = 13 :: 10 :: b.drop (pos + 1) := by
          rw [List.drop_eq_getElem_cons hlt1, hb13]
          have hpp : pos - 1 + 1 = pos := by omega
          rw [hpp, List.drop_eq_getElem_cons hp, hb10]
        have hsegnp : hasPair 13 10 seg = false := by
          cases hb : hasPair 13 10 seg
          · rfl
          · exfalso
            obtain ⟨j, hj, hc, hl⟩ := (hasPair_eq_true_iff 13 10 0 seg).1 hb
            have hseglen : seg.length = min (pos - 1 - after) (b.length - after) := by
              rw [hseg_def, List.length_take, List.length_drop]
            rw [hseglen] at hj
            have hj1 : j + 1 < pos - 1 - after := by omega
            have hc' : b.getD (after + j) 0 = 13 := by
              rw [hseg_def, getD_take' _ _ _ _ (by omega), getD_drop'] at hc
              exact hc
            have hl' : b.getD (after + j + 1) 0 = 10 := by
              rw [hseg_def, getD_take' _ _ _ _ (by omega), getD_drop'] at hl
              have : after + (j + 1) = after + j + 1 := by omega
              rw [this] at hl
              exact hl
            refine h5 (after + j + 1) (by omega) (by omega) (by omega) ⟨?_, hl'⟩
            have : after + j + 1 - 1 = after + j := by omega
            rw [this]; exact hc'
        have hkey : replacePair 13 10 (b.drop after) =
            seg ++ 10 :: replacePair 13 10 (b.drop (pos + 1)) := by
          rw [hsplit, hdrop1]
          exact replacePair_append_pair 13 10 (by norm_num) seg _ hsegnp
        rw [hkey]
        simp [List.append_assoc]
      · rw [if_neg hm]
        apply IH (pos + 1) after ret (by omega) (by omega) (by omega) h4
        intro i hi1 hi2 hi3
        rcases Nat.lt_or_ge i pos with h | h
        · exact h5 i hi1 h hi3
        · have heq : i = pos := by omega
          subst heq
          rintro ⟨ha, hb2⟩
          exact hm ⟨hb2, ha⟩
    · rw [if_neg hp,
        replacePair_eq_self 13 10 _ (drop_no_pair b pos after (by omega) h5)]

/-- The buffer branch of `dos2unix` computes exactly the left-to-right
replacement of every `0x0D 0x0A` pair by a single `0x0A`. -/
theorem dos2unixBytes_eq_spec (b : List Nat) : dos2unixBytes b = specReplaceCRLF b := by
  rw [dos2unixBytes, specReplaceCRLF,
    dos2unixScan_spec b b.length 1 0 [] (by omega) (by omega) (by omega)
      (Or.inl rfl) (by intro i hi1 hi2; omega)]
  simp

/-- JavaScript values reaching `dos2unix`: `null`/`undefined`, a string
(as its character list), or a `Buffer` (as its byte list). -/
inductive JsVal where
  | nullV : JsVal
  | strV : List Char → JsVal
  | bufV : List Nat → JsVal
deriving DecidableEq

/-- The string branch of `Adb.prototype.dos2unix`:
`origBuf.replace(/\r\n/g, '\n')` (adb.js line 166). -/
def dos2unixStr (s : List Char) : List Char := replacePair '\r' '\n' s

/-- `Adb.prototype.dos2unix` (adb.js lines 159-208).  A falsy argument
(`null`, `undefined`, or the empty string) is returned unchanged; any
other string takes the regex-replacement branch; a `Buffer` takes the
byte-scan branch (a `Buffer` object is always truthy in JavaScript,
empty or not). -/
def dos2unix : JsVal → JsVal
  | .nullV => .nullV
  | .strV s => if s = [] then .strV s else .strV (dos2unixStr s)
  | .bufV b => .bufV (dos2unixBytes b)

/-- C1: `dos2unix` on a `Buffer` replaces every two-byte `0x0D 0x0A` pair
with a single `0x0A` and leaves every other byte, a lone `0x0D`
included, byte-for-byte identical and in order — it equals the
specification function `specReplaceCRLF`; in particular
`[0x41, 0x0D, 0x42]` is returned unmodified. -/
theorem c1_normalize_refines_pair_replacement :
    ∀ b : List Nat, dos2unixBytes b = specReplaceCRLF b
      ∧ dos2unixBytes [0x41, 0x0D, 0x42] = [0x41, 0x0D, 0x42] :=
  fun b => ⟨dos2unixBytes_eq_spec b, by decide⟩

/-- C2 counterexample: `dos2unix` is not idempotent.  On the byte
sequence `[0x0D, 0x0D, 0x0A]` one application yields `[0x0D, 0x0A]`
(the first `0x0D` is copied verbatim, the following pair collapses),
and a second application collapses the freshly adjacent pair to
`[0x0A]`. -/
theorem c2_idempotence_counterexample :
    ¬ (dos2unixBytes (dos2unixBytes [13, 13, 10]) = dos2unixBytes [13, 13, 10]) := by
  decide

/-- C2 (amended): `dos2unix` is idempotent on every input whose image is
already normalized, i.e. whenever one application leaves no `0x0D 0x0A`
pair (in particular on every already-normalized input); this holds for
both the buffer branch and the string branch. -/
theorem c2_idempotent_on_normalized :
    ∀ (b : List Nat) (s : List Char),
      (hasPair 13 10 (dos2unixBytes b) = false →
        dos2unixBytes (dos2unixBytes b) = dos2unixBytes b) ∧
      (hasPair '\r' '\n' (dos2unixStr s) = false →
        dos2unixStr (dos2unixStr s) = dos2unixStr s) := by
  intro b s
  constructor
  · intro h
    rw [dos2unixBytes_eq_spec (dos2unixBytes b), specReplaceCRLF,
      replacePair_eq_self 13 10 _ h]
  · intro h
    exact replacePair_eq_self '\r' '\n' (dos2unixStr s) h

theorem c2_idempotent_on_normalized_witness :
    dos2unixBytes (dos2unixBytes [65, 13, 10]) = dos2unixBytes [65, 13, 10] ∧
    dos2unixStr (dos2unixStr ['a', '\r', '\n']) = dos2unixStr ['a', '\r', '\n'] :=
  ⟨(c2_idempotent_on_normalized [65, 13, 10] ['a', '\r', '\n']).1 (by decide),
   (c2_idempotent_on_normalized [65, 13, 10] ['a', '\r', '\n']).2 (by decide)⟩

/-- C3: normalization never lengthens a buffer; the length is preserved
exactly when the input holds no `0x0D 0x0A` pair, and a pair-free input
is returned byte-for-byte equal. -/
theorem c3_length_contract :
    ∀ b : List Nat,
      (dos2unixBytes b).length ≤ b.length ∧
      ((dos2unixBytes b).length = b.length ↔ hasPair 13 10 b = false) ∧
      (hasPair 13 10 b = false → dos2unixBytes b = b) := by
  intro b
  rw [dos2unixBytes_eq_spec b, specReplaceCRLF]
  exact ⟨replacePair_length_le 13 10 b, replacePair_length_eq_iff 13 10 b,
    replacePair_eq_self 13 10 b⟩

theorem c3_length_contract_witness :
    dos2unixBytes [65, 13, 66] = [65, 13, 66] :=
  (c3_length_contract [65, 13, 66]).2.2 (by decide)

/-- JavaScript truthiness of a `dos2unix` argument: `null`/`undefined`
and the empty string are falsy; a `Buffer` object never is. -/
def jsFalsy : JsVal → Bool
  | .nullV => true
  | .strV s => s == []
  | .bufV _ => false

/-- C8: `dos2unix` is the identity on every falsy input, in particular
on `null` and on the empty string (`!origBuf` guard, adb.js lines
161-163). -/
theorem c8_identity_on_falsy :
    ∀ v : JsVal, jsFalsy v = true → dos2unix v = v := by
  intro v hv
  match v with
  | .nullV => rfl
  | .strV s =>
    have hs : s = [] := by simpa [jsFalsy] using hv
    subst hs
    rfl
  | .bufV b => simp [jsFalsy] at hv

theorem c8_identity_on_falsy_witness :
    dos2unix .nullV = .nullV ∧ dos2unix (.strV []) = .strV [] :=
  ⟨c8_identity_on_falsy .nullV rfl, c8_identity_on_falsy (.strV []) rfl⟩

/-- Default adb command timeout (adb.js line 34). -/
def DEFAULT_TIMEOUT : Nat := 60000

/-- The device handle: the adb executable name and the device serial
(adb.js constructor `Adb`, lines 47-52). -/
structure Adb where
  adbCommand : String
  serial : String
deriving DecidableEq

/-- The invocation record handed to the external process executor
`process_utils.scheduleExec`, an external collaborator: program,
argument vector, spawn options, and the effective timeout. -/
structure ExecCall (α : Type) where
  program : String
  args : List String
  options : α
  timeoutMs : Nat
deriving DecidableEq

/-- JavaScript `timeout || DEFAULT_TIMEOUT`: an absent (`undefined` /
`null`) or zero timeout falls back to the default. -/
def jsOrDefault : Option Nat → Nat → Nat
  | none, d => d
  | some t, d => if t = 0 then d else t

/-- `Adb.prototype.command_` (adb.js lines 64-68). -/
def Adb.command_ (a : Adb) (args : List String) (options : α)
    (timeout : Option Nat) : ExecCall α :=
  ⟨a.adbCommand, args, options, jsOrDefault timeout DEFAULT_TIMEOUT⟩

/-- `Adb.prototype.adb` (adb.js lines 79-82). -/
def Adb.adb (a : Adb) (args : List String) (options : α)
    (timeout : Option Nat) : ExecCall α :=
  a.command_ (["-s", a.serial] ++ args) options timeout

/-- `Adb.prototype.shell` (adb.js lines 93-96). -/
def Adb.shell (a : Adb) (args : List String) (options : α)
    (timeout : Option Nat) : ExecCall α :=
  a.adb (["shell"] ++ args) options timeout

/-- C7: `shell args` is exactly `adb (["shell"] ++ args)`, `adb` forwards
to the dispatch primitive `command_` with `"-s"` and the serial
prepended, and `command_` invokes the executor with the given timeout
or the 60000 ms default. -/
theorem c7_shell_adb_composition :
    ∀ (α : Type) (a : Adb) (args : List String) (opt : α) (t : Option Nat),
      a.shell args opt t = a.adb (["shell"] ++ args) opt t ∧
      a.adb args opt t = a.command_ (["-s", a.serial] ++ args) opt t ∧
      a.command_ args opt t = ⟨a.adbCommand, args, opt, jsOrDefault t 60000⟩ :=
  fun _ _ _ _ _ => ⟨rfl, rfl, rfl⟩

/-- C10: a falsy timeout (`undefined`/`null`, i.e. `none`, or an
explicit `0`) is dispatched with the 60000 ms default at every level:
`command_`, `adb`, and `shell`. -/
theorem c10_falsy_timeout_uses_default :
    ∀ (α : Type) (a : Adb) (args : List String) (opt : α) (t : Option Nat),
      t = none ∨ t = some 0 →
      (a.command_ args opt t).timeoutMs = 60000 ∧
      (a.adb args opt t).timeoutMs = 60000 ∧
      (a.shell args opt t).timeoutMs = 60000 := by
  intro α a args opt t ht
  rcases ht with h | h <;> subst h <;> exact ⟨rfl, rfl, rfl⟩

theorem c10_falsy_timeout_uses_default_witness :
    (Adb.command_ ⟨"adb", "serial123"⟩ ["get-state"] () (some 0)).timeoutMs = 60000 :=
  (c10_falsy_timeout_uses_default Unit ⟨"adb", "serial123"⟩ ["get-state"] () (some 0)
    (Or.inr rfl)).1

/-- A settled JavaScript promise, embedded as `Except`; `.then` with a
success continuation maps the resolved value and propagates rejection. -/
def promiseThen (p : Except ε α) (f : α → β) : Except ε β :=
  match p with
  | .ok v => .ok (f v)
  | .error e => .error e

/-- The shell arguments issued by `Adb.prototype.exists`
(adb.js line 106). -/
def existsArgs (path : String) : List String :=
  ["ls", path, ">", "/dev/null", "2>&1", ";", "echo", "$?"]

/-- The result interpretation of `Adb.prototype.exists` (adb.js lines
104-110): the `.then` continuation compares the captured stdout with
the string `"0"` by string equality; a rejected shell promise
propagates as a rejection. -/
def pathExistsResult (res : Except String String) : Except String Bool :=
  promiseThen res (fun stdout => stdout == "0")

/-- C4: `exists` resolves `true` iff the captured status output is the
exact string `"0"` (so `"00"`, `"0 "`, `"1"` and `""` all give
`false`), and a failed shell invocation propagates as a failure, never
as `false` and never as a silent `true`. -/
theorem c4_pathExists_contract :
    ∀ res : Except String String,
      (pathExistsResult res = .ok true ↔ res = .ok "0") ∧
      (∀ e, res = .error e → pathExistsResult res = .error e) ∧
      pathExistsResult (.ok "00") = .ok false ∧
      pathExistsResult (.ok "0 ") = .ok false ∧
      pathExistsResult (.ok "1") = .ok false ∧
      pathExistsResult (.ok "") = .ok false := by
  intro res
  refine ⟨?_, ?_, rfl, rfl, rfl, rfl⟩
  · match res with
    | .ok s => simp [pathExistsResult, promiseThen, beq_iff_eq]
    | .error e => simp [pathExistsResult, promiseThen]
  · intro e he
    subst he
    rfl

theorem c4_pathExists_contract_witness :
    pathExistsResult (.error "spawn failure") = .error "spawn failure" :=
  (c4_pathExists_contract (.error "spawn failure")).2.1 "spawn failure" rfl

/-- JavaScript `stdout.split(/\r?\n/)`: cut at every line-feed,
consuming one immediately preceding carriage-return with it; a lone
carriage-return is ordinary content.  `acc` holds the current piece
reversed. -/
def splitLinesAux : List Char → List Char → List (List Char)
  | [], acc => [acc.reverse]
  | '\r' :: '\n' :: rest, acc => acc.reverse :: splitLinesAux rest []
  | '\n' :: rest, acc => acc.reverse :: splitLinesAux rest []
  | c :: rest, acc => splitLinesAux rest (c :: acc)

def splitLines (stdout : List Char) : List (List Char) := splitLinesAux stdout []

/-- JavaScript `String.prototype.split` on a one-or-more-separators
regex: pieces between maximal separator runs, with an empty piece kept
at either end when the string starts or ends with a separator.  The
second argument is the current piece reversed, or `none` while inside a
separator run. -/
def splitRunsAux (isSep : Char → Bool) : List Char → Option (List Char) → List (List Char)
  | [], none => [[]]
  | [], some acc => [acc.reverse]
  | c :: rest, none =>
    if isSep c then splitRunsAux isSep rest none
    else splitRunsAux isSep rest (some [c])
  | c :: rest, some acc =>
    if isSep c then acc.reverse :: splitRunsAux isSep rest none
    else splitRunsAux isSep rest (some (c :: acc))

/-- The JavaScript `\s` character class, restricted to its ASCII
members (the process listing is ASCII). -/
def jsWs (c : Char) : Bool :=
  c == ' ' || c == '\t' || c == '\n' || c == '\r' || c == '\x0B' || c == '\x0C'

/-- `line.split(/\s+/)` (adb.js line 132). -/
def splitWs (line : List Char) : List (List Char) := splitRunsAux jsWs line (some [])

/-- `lines[0].indexOf('USER ') === 0`: the first line begins with the
literal five-character header token. -/
def startsWithList (l pre : List Char) : Bool := l.take pre.length == pre

/-- The failures of `Adb.prototype.getPidsOfProcess`, carrying the raw
context the thrown `Error` messages format in: the raw output, and for
a malformed data line also its index. -/
inductive PsError where
  | cmdFailed (stdout : List Char)
  | parseLine (iLine : Nat) (stdout : List Char)
deriving DecidableEq

/-- One iteration of the `lines.forEach` body of
`Adb.prototype.getPidsOfProcess` (adb.js lines 128-141): skip an empty
line, skip the header (line index 0 whose first field is `USER`), fail
on a field count other than 9, and otherwise push field index 1. -/
def psProcessLine (stdout : List Char) (iLine : Nat) (line : List Char)
    (pids : List (List Char)) : Except PsError (List (List Char)) :=
  if line.length = 0 then .ok pids
  else
    let fields := splitWs line
    if iLine = 0 ∧ fields.getD 0 [] = "USER".data then .ok pids
    else if fields.length ≠ 9 then .error (.parseLine iLine stdout)
    else .ok (pids ++ [fields.getD 1 []])

/-- The `forEach` of `getPidsOfProcess` over the indexed lines, with a
thrown `Error` aborting the traversal. -/
def psFold (stdout : List Char) :
    List (Nat × List Char) → List (List Char) → Except PsError (List (List Char))
  | [], pids => .ok pids
  | p :: rest, pids =>
    match psProcessLine stdout p.1 p.2 pids with
    | .ok pids2 => psFold stdout rest pids2
    | .error e => .error e

/-- The `.then` continuation of `Adb.prototype.getPidsOfProcess`
(adb.js lines 122-143) applied to the captured stdout. -/
def getPidsOfProcess (stdout : List Char) : Except PsError (List (List Char)) :=
  if (splitLines stdout).length = 0 ∨
      ¬ startsWithList ((splitLines stdout).getD 0 []) "USER ".data then
    .error (.cmdFailed stdout)
  else
    psFold stdout (splitLines stdout).enum []

/-- An indexed line the `forEach` body does not skip: non-empty and not
the header. -/
def psKeep (p : Nat × List Char) : Bool :=
  !(p.2.length == 0) && !(p.1 == 0 && ((splitWs p.2).getD 0 [] == "USER".data))

/-- An indexed line the `forEach` body fails on: kept but with a field
count other than 9. -/
def psBad (p : Nat × List Char) : Bool :=
  psKeep p && !((splitWs p.2).length == 9)

/-- The process identifier extracted from a kept line: field index 1. -/
def psPid (p : Nat × List Char) : List Char := (splitWs p.2).getD 1 []

theorem psProcessLine_skip (stdout : List Char) (p : Nat × List Char)
    (pids : List (List Char)) (h : psKeep p = false) :
    psProcessLine stdout p.1 p.2 pids = .ok pids := by
  rw [psProcessLine]
  simp only [psKeep, Bool.and_eq_false_iff, Bool.not_eq_false', beq_iff_eq,
    Bool.and_eq_true] at h
  by_cases h0 : p.2.length = 0
  · rw [if_pos h0]
  · rw [if_neg h0]
    rcases h with h | h
    · exact absurd h h0
    · rw [if_pos ⟨h.1, h.2⟩]

theorem psProcessLine_keep_ok (stdout : List Char) (p : Nat × List Char)
    (pids : List (List Char)) (hk : psKeep p = true)
    (h9 : (splitWs p.2).length = 9) :
    psProcessLine stdout p.1 p.2 pids = .ok (pids ++ [psPid p]) := by
  rw [psProcessLine]
  simp only [psKeep, Bool.and_eq_true, Bool.not_eq_true', beq_eq_false_iff_ne,
    ne_eq, Bool.and_eq_false_iff, beq_iff_eq] at hk
  rw [if_neg hk.1, if_neg, if_neg (by omega)]
  · rfl
  · rintro ⟨h0, hu⟩
    rcases hk.2 with h | h
    · exact h h0
    · exact h hu

theorem psProcessLine_keep_err (stdout : List Char) (p : Nat × List Char)
    (pids : List (List Char)) (hk : psKeep p = true)
    (h9 : (splitWs p.2).length ≠ 9) :
    psProcessLine stdout p.1 p.2 pids = .error (.parseLine p.1 stdout) := by
  rw [psProcessLine]
  simp only [psKeep, Bool.and_eq_true, Bool.not_eq_true', beq_eq_false_iff_ne,
    ne_eq, Bool.and_eq_false_iff, beq_iff_eq] at hk
  rw [if_neg hk.1, if_neg, if_pos h9]
  rintro ⟨h0, hu⟩
  rcases hk.2 with h | h
  · exact h h0
  · exact h hu

theorem psFold_all_ok (stdout : List Char) :
    ∀ (ps : List (Nat × List Char)) (pids : List (List Char)),
      (∀ p ∈ ps, psBad p = false) →
      psFold stdout ps pids = .ok (pids ++ (ps.filter psKeep).map psPid)
  | [], pids, _ => by simp [psFold]
  | p :: rest, pids, h => by
    have hrest : ∀ q ∈ rest, psBad q = false := fun q hq => h q (List.mem_cons_of_mem p hq)
    rw [psFold]
    cases hk : psKeep p
    · rw [psProcessLine_skip stdout p pids hk]
      rw [show (match (Except.ok pids : Except PsError (List (List Char))) with
          | .ok pids2 => psFold stdout rest pids2
          | .error e => .error e) = psFold stdout rest pids from rfl]
      rw [psFold_all_ok stdout rest pids hrest]
      simp [List.filter_cons, hk]
    · have h9 : (splitWs p.2).length = 9 := by
        have hb := h p (List.mem_cons_self p rest)
        simp only [psBad, Bool.and_eq_false_iff] at hb
        rcases hb with hb | hb
        · rw [hk] at hb; simp at hb
        · simpa using hb
      rw [psProcessLine_keep_ok stdout p pids hk h9]
      rw [show (match (Except.ok (pids ++ [psPid p]) : Except PsError (List (List Char))) with
          | .ok pids2 => psFold stdout rest pids2
          | .error e => .error e) = psFold stdout rest (pids ++ [psPid p]) from rfl]
      rw [psFold_all_ok stdout rest (pids ++ [psPid p]) hrest]
      simp [List.filter_cons, hk, List.append_assoc]

theorem psFold_find_err (stdout : List Char) :
    ∀ (ps : List (Nat × List Char)) (pids : List (List Char)) (p : Nat × List Char),
      ps.find? psBad = some p →
      psFold stdout ps pids = .error (.parseLine p.1 stdout)
  | [], pids, p, h => by simp [List.find?] at h
  | q :: rest, pids, p, h => by
    rw [psFold]
    by_cases hb : psBad q = true
    · rw [List.find?_cons_of_pos _ hb] at h
      injection h with h
      subst h
      have hk : psKeep q = true := by
        simp only [psBad, Bool.and_eq_true] at hb
        exact hb.1
      have h9 : (splitWs q.2).length ≠ 9 := by
        simp only [psBad, Bool.and_eq_true, Bool.not_eq_true', beq_eq_false_iff_ne,
          ne_eq] at hb
        exact hb.2
      rw [psProcessLine_keep_err stdout q pids hk h9]
    · rw [List.find?_cons_of_neg _ hb] at h
      have hbf : psBad q = false := by
        cases hbq : psBad q
        · rfl
        · exact absurd hbq hb
      cases hk : psKeep q
      · rw [psProcessLine_skip stdout q pids hk]
        exact psFold_find_err stdout rest pids p h
      · have h9 : (splitWs q.2).length = 9 := by
          simp only [psBad, Bool.and_eq_false_iff] at hbf
          rcases hbf with hbf | hbf
          · rw [hk] at hbf; simp at hbf
          · simpa using hbf
        rw [psProcessLine_keep_ok stdout q pids hk h9]
        exact psFold_find_err stdout rest (pids ++ [psPid q]) p h

/-- C5: whenever the split of the captured stdout on `\n`-or-`\r\n`
yields zero lines or a first line that does not begin with the literal
token `"USER "`, `getPidsOfProcess` fails with the parse error carrying
the raw output, and returns no process identifiers. -/
theorem c5_header_check (stdout : List Char)
    (h : (splitLines stdout).length = 0 ∨
      ¬ startsWithList ((splitLines stdout).getD 0 []) "USER ".data) :
    getPidsOfProcess stdout = .error (.cmdFailed stdout) := by
  rw [getPidsOfProcess, if_pos h]

theorem c5_header_check_witness :
    getPidsOfProcess "bad output".data = .error (.cmdFailed "bad output".data) :=
  c5_header_check "bad output".data (by decide)

/-- C6: past the header check, `getPidsOfProcess` skips blank lines and
the header, splits every remaining line on runs of whitespace, and is
all-or-nothing: if no kept line has a field count other than 9 it
returns field index 1 of every kept line in line order, and otherwise
it fails with the parse error naming the first offending line's index
together with the raw output. -/
theorem c6_ps_parse_contract (stdout : List Char)
    (h : ¬ ((splitLines stdout).length = 0 ∨
      ¬ startsWithList ((splitLines stdout).getD 0 []) "USER ".data)) :
    ((splitLines stdout).enum.find? psBad = none →
      getPidsOfProcess stdout =
        .ok (((splitLines stdout).enum.filter psKeep).map psPid)) ∧
    (∀ p, (splitLines stdout).enum.find? psBad = some p →
      psKeep p = true ∧ (splitWs p.2).length ≠ 9 ∧
      getPidsOfProcess stdout = .error (.parseLine p.1 stdout)) := by
  constructor
  · intro hf
    rw [getPidsOfProcess, if_neg h]
    have hall : ∀ p ∈ (splitLines stdout).enum, psBad p = false := by
      intro p hp
      have := List.find?_eq_none.1 hf p hp
      simpa using this
    rw [psFold_all_ok stdout _ [] hall]
    simp
  · intro p hp
    have hbad : psBad p = true := List.find?_some hp
    simp only [psBad, Bool.and_eq_true, Bool.not_eq_true', beq_eq_false_iff_ne,
      ne_eq] at hbad
    refine ⟨hbad.1, hbad.2, ?_⟩
    rw [getPidsOfProcess, if_neg h]
    exact psFold_find_err stdout _ [] p hp

/-- A well-formed two-line `ps` listing with one data line. -/
def psSample : List Char :=
  ("USER PID PPID VSIZE RSS WCHAN PC S NAME\n" ++
    "root 1234 567 1024 2048 ffffffff 00000000 S tcpdump\n").data

theorem c6_ps_parse_contract_witness :
    getPidsOfProcess psSample = .ok ["1234".data] := by
  have h := (c6_ps_parse_contract psSample (by decide)).1 (by decide)
  rw [h]
  exact congrArg Except.ok (by decide)

/-- A heap of JavaScript `Buffer` objects; a buffer reference is its
index, so object identity and aliasing are observable. -/
abbrev BufHeap := List (List Nat)

/-- `buf[i]` read through the heap. -/
def bufRead (h : BufHeap) (r i : Nat) : Nat := (h.getD r []).getD i 0

/-- `buf[i] = v` through the heap: mutates only the buffer at `r`. -/
def bufWrite (h : BufHeap) (r i v : Nat) : BufHeap :=
  h.set r ((h.getD r []).set i v)

/-- `src.copy(tgt, tgtStart, srcStart, srcStart + k)`: `k` byte-by-byte
transfers, each one a read of `src` and a write of `tgt`. -/
def bufCopy (src tgt : Nat) : Nat → Nat → Nat → BufHeap → BufHeap
  | 0, _, _, h => h
  | k + 1, srcStart, tgtStart, h =>
    bufCopy src tgt k (srcStart + 1) (tgtStart + 1)
      (bufWrite h tgt tgtStart (bufRead h src srcStart))

/-- The scan loop of the buffer branch of `Adb.prototype.dos2unix`
replayed against the heap: same control flow as `dos2unixScan`, with
the output written into the buffer at `tgt` through `bufCopy` and
`bufWrite`, exactly as the source performs `origBuf.copy(retBuf, ...)`
and `retBuf[retLen++] = 10` (the `copyLen > 0` and `tailLen > 0`
guards included).  `origLen` is `origBuf.length` read once before the
loop.  Returns the heap and the final `retLen`. -/
def dos2unixHeapScan (src tgt origLen : Nat) :
    Nat → Nat → Nat → Nat → BufHeap → BufHeap × Nat
  | 0, _, after, retLen, h =>
    (if 0 < origLen - after then bufCopy src tgt (origLen - after) after retLen h else h,
      retLen + (origLen - after))
  | fuel + 1, pos, after, retLen, h =>
    if pos < origLen then
      if bufRead h src pos = 10 ∧ bufRead h src (pos - 1) = 13 then
        dos2unixHeapScan src tgt origLen fuel (pos + 1) (pos + 1)
          (retLen + (pos - after - 1) + 1)
          (bufWrite
            (if 0 < pos - after - 1 then
              bufCopy src tgt (pos - after - 1) after retLen h
            else h)
            tgt (retLen + (pos - after - 1)) 10)
      else
        dos2unixHeapScan src tgt origLen fuel (pos + 1) after retLen h
    else
      (if 0 < origLen - after then bufCopy src tgt (origLen - after) after retLen h else h,
        retLen + (origLen - after))

/-- The final `retBuf.slice(0, retLen)` trim: the returned view of the
buffer at `tgt`, shortened when fewer bytes were written than
allocated. -/
def dos2unixSlice (tgt : Nat) (r : BufHeap × Nat) : BufHeap :=
  if r.2 < (r.1.getD tgt []).length then r.1.set tgt ((r.1.getD tgt []).take r.2)
  else r.1

/-- `Adb.prototype.dos2unix` on a `Buffer`, with allocation explicit:
`new Buffer(origLen)` appends a fresh buffer at index `h.length` (its
initial contents are unspecified in Node; zeros here), the scan runs
from position 1, and the result is the trimmed fresh buffer's
reference together with the final heap. -/
def dos2unixHeap (h : BufHeap) (src : Nat) : BufHeap × Nat :=
  (dos2unixSlice h.length
    (dos2unixHeapScan src h.length (h.getD src []).length
      (h.getD src []).length 1 0 0
      (h ++ [List.replicate (h.getD src []).length 0])),
   h.length)

theorem getD_set_ne' (h : BufHeap) (t r : Nat) (v : List Nat) (hne : r ≠ t) :
    (h.set t v).getD r [] = h.getD r [] := by
  simp [List.getD_eq_getElem?_getD, List.getElem?_set_ne (Ne.symm hne)]

theorem bufWrite_frame (h : BufHeap) (t i v r : Nat) (hne : r ≠ t) :
    (bufWrite h t i v).getD r [] = h.getD r [] :=
  getD_set_ne' h t r _ hne

theorem bufCopy_frame (src tgt : Nat) :
    ∀ (k srcStart tgtStart : Nat) (h : BufHeap) (r : Nat), r ≠ tgt →
      (bufCopy src tgt k srcStart tgtStart h).getD r [] = h.getD r []
  | 0, _, _, _, _, _ => rfl
  | k + 1, ss, ts, h, r, hne => by
    rw [bufCopy, bufCopy_frame src tgt k (ss + 1) (ts + 1) _ r hne,
      bufWrite_frame _ _ _ _ _ hne]

theorem dos2unixHeapScan_frame (src tgt origLen : Nat) :
    ∀ (fuel pos after retLen : Nat) (h : BufHeap) (r : Nat), r ≠ tgt →
      ((dos2unixHeapScan src tgt origLen fuel pos after retLen h).1).getD r [] =
        h.getD r []
  | 0, pos, after, retLen, h, r, hne => by
    rw [dos2unixHeapScan]
    by_cases ht : 0 < origLen - after
    · dsimp only
      rw [if_pos ht]
      exact bufCopy_frame src tgt _ _ _ h r hne
    · dsimp only
      rw [if_neg ht]
  | fuel + 1, pos, after, retLen, h, r, hne => by
    rw [dos2unixHeapScan]
    by_cases hp : pos < origLen
    · rw [if_pos hp]
      by_cases hm : bufRead h src pos = 10 ∧ bufRead h src (pos - 1) = 13
      · rw [if_pos hm,
          dos2unixHeapScan_frame src tgt origLen fuel _ _ _ _ r hne,
          bufWrite_frame _ _ _ _ _ hne]
        by_cases hc : 0 < pos - after - 1
        · rw [if_pos hc]
          exact bufCopy_frame src tgt _ _ _ h r hne
        · rw [if_neg hc]
      · rw [if_neg hm]
        exact dos2unixHeapScan_frame src tgt origLen fuel _ _ _ h r hne
    · rw [if_neg hp]
      by_cases ht : 0 < origLen - after
      · dsimp only
        rw [if_pos ht]
        exact bufCopy_frame src tgt _ _ _ h r hne
      · dsimp only
        rw [if_neg ht]

theorem dos2unixSlice_frame (tgt : Nat) (r : BufHeap × Nat) (s : Nat) (hne : s ≠ tgt) :
    (dos2unixSlice tgt r).getD s [] = r.1.getD s [] := by
  rw [dos2unixSlice]
  by_cases hc : r.2 < (r.1.getD tgt []).length
  · rw [if_pos hc]
    exact getD_set_ne' r.1 tgt s _ hne
  · rw [if_neg hc]

theorem getD_append_left' (h : BufHeap) (x : List Nat) (src : Nat)
    (hlt : src < h.length) :
    (h ++ [x]).getD src [] = h.getD src [] := by
  rw [List.getD_append _ _ _ _ hlt]

/-- C9: on a `Buffer`, `dos2unix` never mutates its input — after the
call the input buffer's contents are unchanged — and the reference it
returns is the freshly allocated buffer (or its trimmed view), never
the input object, whether or not a `0x0D 0x0A` pair is present. -/
theorem c9_dos2unix_heap_frame :
    ∀ (h : BufHeap) (src : Nat), src < h.length →
      (dos2unixHeap h src).2 = h.length ∧
      (dos2unixHeap h src).2 ≠ src ∧
      ((dos2unixHeap h src).1).getD src [] = h.getD src [] := by
  intro h src hlt
  have hne : src ≠ h.length := by omega
  refine ⟨rfl, ?_, ?_⟩
  · show h.length ≠ src
    omega
  · show (dos2unixSlice h.length
        (dos2unixHeapScan src h.length (h.getD src []).length
          (h.getD src []).length 1 0 0
          (h ++ [List.replicate (h.getD src []).length 0]))).getD src [] =
      h.getD src []
    rw [dos2unixSlice_frame _ _ _ hne,
      dos2unixHeapScan_frame src h.length _ _ _ _ _ _ src hne,
      getD_append_left' h _ src hlt]

theorem c9_dos2unix_heap_frame_witness :
    (dos2unixHeap [[13, 10, 65]] 0).2 ≠ 0 ∧
    ((dos2unixHeap [[13, 10, 65]] 0).1).getD 0 [] = [13, 10, 65] :=
  ⟨(c9_dos2unix_heap_frame [[13, 10, 65]] 0 (by decide)).2.1,
   (c9_dos2unix_heap_frame [[13, 10, 65]] 0 (by decide)).2.2⟩

example : ((dos2unixHeap [[97, 13, 10, 98]] 0).1).getD 1 [] =
    dos2unixBytes [97, 13, 10, 98] := by decide

example : dos2unixBytes [0x61, 0x0D, 0x0A, 0x62, 0x0D, 0x0A] = [0x61, 0x0A, 0x62, 0x0A] := by
  decide

example : dos2unixBytes [0x41, 0x0D, 0x42] = [0x41, 0x0D, 0x42] := by decide

example : dos2unixBytes [13, 13, 10] = [13, 10] := by decide

example : dos2unixBytes (dos2unixBytes [13, 13, 10]) = [10] := by decide
